import Mathlib

/-!
Shallow embedding of the zalgo codec core (`zalgo-codec-common`):
the byte mapping, `zalgo_encode`, `zalgo_decode`, `zalgo_wrap_python`,
the `ZalgoString` wrapper type and its decoded-bytes iterators.

Rust strings are modelled as lists of their UTF-8 bytes (`List Nat`,
each element < 256 on every path the code reaches).  Fallible Rust
functions become `Except`-valued functions; a Rust panic is modelled
as `none` of an `Option`.
-/

/-- A byte that `zalgo_encode` accepts: printable ASCII (the source checks
`(32..127).contains(byte)`) or the newline byte `10`. -/
def EncodableByte (b : Nat) : Prop := (32 ≤ b ∧ b < 127) ∨ b = 10

instance (b : Nat) : Decidable (EncodableByte b) := by
  unfold EncodableByte
  infer_instance

/-- Embeds `decode_byte_pair` from `src/common/src/lib.rs`:
`((odd << 6 & 64 | even & 63) + 22) % 133 + 10` in `u8` arithmetic.
The shift `odd << 6` wraps modulo 256 in `u8`; the later additions cannot
wrap since `(64 ||| 63) + 22 = 149 < 256`. -/
def decode_byte_pair (odd even : Nat) : Nat :=
  ((((odd * 64) % 256) &&& 64 ||| (even &&& 63)) + 22) % 133 + 10

/-- Embeds the per-byte encoding step of `zalgo_encode`
(`src/common/src/lib.rs` lines 254-256):
`v = ((byte as i16 - 11).rem_euclid(133) - 21) as u8` followed by the pair
`((v >> 6) & 1 | 0b1100_1100, (v & 63) | 0b1000_0000)`.
The `as u8` cast keeps the low 8 bits, i.e. reduces the `i16` value
modulo 256 (nonnegative for every byte the guard lets through). -/
def encodeByte (b : Nat) : Nat × Nat :=
  let v : Nat := ((((b : Int) - 11).emod 133 - 21).emod 256).toNat
  (((v >>> 6) &&& 1) ||| 204, (v &&& 63) ||| 128)

/-- Embeds `nonprintable_ascii_repr` from `src/common/src/lib.rs`:
the fixed name table for control bytes 0-9, 11-31 and 127. -/
def nonprintable_ascii_repr (byte : Nat) : Option String :=
  if byte < 10 then
    some (List.getD
      ["Null", "Start Of Heading", "Start Of Text", "End Of Text",
       "End Of Transmission", "Enquiry", "Acknowledge", "Bell", "Backspace",
       "Horizontal Tab"] byte "")
  else if 11 ≤ byte ∧ byte < 32 then
    some (List.getD
      ["Vertical Tab", "Form Feed", "Carriage Return", "Shift Out", "Shift In",
       "Data Link Escape", "Data Control 1", "Data Control 2", "Data Control 3",
       "Data Control 4", "Negative Acknowledge", "Synchronous Idle",
       "End Of Transmission Block", "Cancel", "End Of Medium", "Substitute",
       "Escape", "File Separator", "Group Separator", "Record Separator",
       "Unit Separator"] (byte - 11) "")
  else if byte = 127 then some ("Delete")
  else none

/-- Reads the first UTF-8 encoded code point of a byte list, mirroring
`string[idx..].chars().next()` in the error path of `zalgo_encode`.
Continuation-byte range checks are omitted because every call site passes
the byte suffix of a Rust `&str`, which is always valid UTF-8;
`none` corresponds to the `.expect` panic the source documents as
unreachable for such inputs. -/
def utf8FirstChar : List Nat → Option Nat
  | [] => none
  | b :: rest =>
    if b < 128 then some b
    else if 194 ≤ b ∧ b ≤ 223 then
      match rest with
      | c1 :: _ => some ((b - 192) * 64 + (c1 - 128))
      | [] => none
    else if 224 ≤ b ∧ b ≤ 239 then
      match rest with
      | c1 :: c2 :: _ => some ((b - 224) * 4096 + (c1 - 128) * 64 + (c2 - 128))
      | _ => none
    else if 240 ≤ b ∧ b ≤ 244 then
      match rest with
      | c1 :: c2 :: c3 :: _ =>
          some ((b - 240) * 262144 + (c1 - 128) * 4096 + (c2 - 128) * 64 + (c3 - 128))
      | _ => none
    else none

/-- The error type of `zalgo_encode` in `src/common/src/lib.rs`: the variants
`Error::UnencodableAscii(byte, line, column, repr)` and
`Error::NotAscii(char, line, column)`.  The character of the `NotAscii`
variant is the code point extracted by `utf8FirstChar`. -/
inductive EncodeErr where
  | unencodableAscii (byte line column : Nat) (reprName : String)
  | notAscii (ch : Option Nat) (line column : Nat)
deriving DecidableEq

deriving instance DecidableEq for Except

/-- The line stored in an encode error. -/
def EncodeErr.line : EncodeErr → Nat
  | .unencodableAscii _ l _ _ => l
  | .notAscii _ l _ => l

/-- The column stored in an encode error. -/
def EncodeErr.column : EncodeErr → Nat
  | .unencodableAscii _ _ c _ => c
  | .notAscii _ _ c => c

/-- The scanning loop of `zalgo_encode` (`src/common/src/lib.rs` lines
242-276).  The source iterates over 16-byte chunks purely to batch buffer
writes; the produced bytes, the visit order, and the line/column updates
are those of a single left-to-right pass, which is what is embedded here.
On a newline the line counter is incremented and the column reset to 0
before the common `column += 1` at the end of the iteration. -/
def zalgo_encode_loop : List Nat → Nat → Nat → Except EncodeErr (List Nat)
  | [], _, _ => Except.ok []
  | b :: rest, line, column =>
    if (32 ≤ b ∧ b < 127) ∨ b = 10 then
      match zalgo_encode_loop rest (if b = 10 then line + 1 else line)
          ((if b = 10 then 0 else column) + 1) with
      | Except.ok tl => Except.ok ((encodeByte b).1 :: (encodeByte b).2 :: tl)
      | Except.error e => Except.error e
    else
      match nonprintable_ascii_repr b with
      | some r => Except.error (EncodeErr.unencodableAscii b line column r)
      | none => Except.error (EncodeErr.notAscii (utf8FirstChar (b :: rest)) line column)

/-- Embeds `zalgo_encode` from `src/common/src/lib.rs` lines 227-282:
the result vector starts with the anchor byte `b'E' = 69`, then the scanning
loop appends one byte pair per input byte, starting from line 1, column 1. -/
def zalgo_encode (s : List Nat) : Except EncodeErr (List Nat) :=
  match zalgo_encode_loop s 1 1 with
  | Except.ok tl => Except.ok (69 :: tl)
  | Except.error e => Except.error e

/-- Decodes consecutive byte pairs with `decode_byte_pair`, dropping a
trailing unpaired byte.  This is the value of the `res` vector built by the
loop of `zalgo_decode`: `res` is pre-sized to `(len - 1) / 2`, which equals
the number of complete pairs found at odd read offsets `1, 3, 5, ...`
(the loop `break`s at the first missing partner byte), so every slot is
overwritten exactly once and no initial zero survives. -/
def decodePairs : List Nat → List Nat
  | a :: b :: rest => decode_byte_pair a b :: decodePairs rest
  | _ => []

/-- Tests whether an optional byte is a UTF-8 continuation-style byte in
the inclusive range `lo ..= hi` (absent bytes fail the test). -/
def contOK (lo hi : Nat) : Option Nat -> Bool
  | some c => decide (lo <= c ∧ c <= hi)
  | none => false

/-- The UTF-8 validity check performed by `String::from_utf8` inside
`zalgo_decode`, as a predicate on byte lists (the RFC 3629 byte-range
table used by Rust's `core::str` validation). -/
def utf8Valid : List Nat -> Bool
  | [] => true
  | b :: rest =>
    if b <= 127 then utf8Valid rest
    else if 194 <= b ∧ b <= 223 then
      contOK 128 191 rest.head? && utf8Valid (rest.drop 1)
    else if b = 224 then
      contOK 160 191 rest.head? && contOK 128 191 (rest.drop 1).head? &&
        utf8Valid (rest.drop 2)
    else if (225 <= b ∧ b <= 236) ∨ (238 <= b ∧ b <= 239) then
      contOK 128 191 rest.head? && contOK 128 191 (rest.drop 1).head? &&
        utf8Valid (rest.drop 2)
    else if b = 237 then
      contOK 128 159 rest.head? && contOK 128 191 (rest.drop 1).head? &&
        utf8Valid (rest.drop 2)
    else if b = 240 then
      contOK 144 191 rest.head? && contOK 128 191 (rest.drop 1).head? &&
        contOK 128 191 (rest.drop 2).head? && utf8Valid (rest.drop 3)
    else if 241 <= b ∧ b <= 243 then
      contOK 128 191 rest.head? && contOK 128 191 (rest.drop 1).head? &&
        contOK 128 191 (rest.drop 2).head? && utf8Valid (rest.drop 3)
    else if b = 244 then
      contOK 128 143 rest.head? && contOK 128 191 (rest.drop 1).head? &&
        contOK 128 191 (rest.drop 2).head? && utf8Valid (rest.drop 3)
    else false
termination_by l => l.length
decreasing_by all_goals (simp [List.length_drop]; try omega)

/-- Embeds `zalgo_decode` from `src/common/src/lib.rs` lines 315-327.
The first statement, `vec![0; (encoded.len() - 1) / 2]`, subtracts from a
`usize`: on the empty string this underflows, which panics in debug builds
and demands an absurd allocation in release builds — modelled as `none`.
For nonempty input the loop fills the vector with the decoded pairs of the
bytes after the anchor position (`decodePairs` of the tail, see its
docstring) and `String::from_utf8` either accepts the bytes or returns a
`FromUtf8Error` carrying them (modelled as `Except.error` with the bytes). -/
def zalgo_decode (encoded : List Nat) : Option (Except (List Nat) (List Nat)) :=
  if encoded = [] then none
  else
    let res := decodePairs (encoded.drop 1)
    some (if utf8Valid res then Except.ok res else Except.error res)

/-- The UTF-8 bytes of an ASCII string literal (for ASCII text the bytes are
exactly the code points of the characters). -/
def asciiBytes (s : String) : List Nat := s.data.map Char.toNat

/-- Embeds `zalgo_wrap_python` from `src/common/src/lib.rs` lines 378-382:
`format!("b='{encoded_string}'.encode();exec(...)")`, i.e. the encoded
string spliced between the two literal halves of the Python template. -/
def zalgo_wrap_python (python : List Nat) : Except EncodeErr (List Nat) :=
  match zalgo_encode python with
  | Except.ok e =>
      Except.ok (asciiBytes "b='" ++ e ++
        asciiBytes "'.encode();exec(''.join(chr(((h<<6&64|c&63)+22)%133+10)for h,c in zip(b[1::2],b[2::2])))")
  | Except.error e => Except.error e

/-- Decodes the byte pairs of a buffer in place, mirroring the loop of
`ZalgoString::into_decoded_bytes` (`src/common/src/zalgo_string/mod.rs`
lines 352-362).  Unlike `zalgo_decode`, the loop there indexes
`bytes[r + 1]` directly, so a trailing unpaired byte is an out-of-bounds
panic (modelled as `none`) instead of being skipped. -/
def decodePairsPanic : List Nat → Option (List Nat)
  | [] => some []
  | [_] => none
  | a :: b :: rest => (decodePairsPanic rest).map (fun t => decode_byte_pair a b :: t)

/-- Embeds `ZalgoString::new`: encode once at construction
(`zalgo_encode(s).map(Self)`); the wrapped buffer is its byte list. -/
def ZalgoString.new (s : List Nat) : Except EncodeErr (List Nat) :=
  zalgo_encode s

/-- Embeds `ZalgoString::as_combining_chars`: `self.0.split_at(1).1`,
the bytes after the leading anchor byte. -/
def ZalgoString.as_combining_chars (l : List Nat) : List Nat :=
  l.drop 1

/-- Embeds `ZalgoString::push_zalgo_str` (`src/common/src/zalgo_string/mod.rs`
lines 503-506): `self.0.push_str(zalgo_string.as_combining_chars())`.
The `+` and `+=` operators of `ZalgoString` both forward to this method. -/
def ZalgoString.push_zalgo_str (l other : List Nat) : List Nat :=
  l ++ ZalgoString.as_combining_chars other

/-- Embeds `ZalgoString::into_decoded_bytes`: the in-place pair-decoding
loop over the bytes after the anchor, followed by `truncate(w)` which keeps
exactly the decoded bytes. -/
def ZalgoString.into_decoded_bytes (l : List Nat) : Option (List Nat) :=
  decodePairsPanic (l.drop 1)

/-- Embeds `ZalgoString::truncate` (`src/common/src/zalgo_string/mod.rs`
lines 600-605): a no-op when `new_len` exceeds the current length, and
otherwise `assert_eq!(new_len % 2, 1)` (a panic when `new_len` is even,
modelled as `none`) before `String::truncate`.  Under the `ZalgoString`
shape — one anchor byte then two-byte characters — every odd byte index is
a character boundary, so the boundary check inside `String::truncate`
cannot fire and the truncation is a plain `List.take`. -/
def ZalgoString.truncate (l : List Nat) (new_len : Nat) : Option (List Nat) :=
  if new_len ≤ l.length then
    if new_len % 2 = 1 then some (l.take new_len) else none
  else some l

/-- Embeds `ZalgoString::clear`: `self.truncate(1)`. -/
def ZalgoString.clear (l : List Nat) : Option (List Nat) :=
  ZalgoString.truncate l 1

/-- The buffers reachable through the public `ZalgoString` operations:
construction with `new` (only when encoding succeeded), appending with
`push_zalgo_str` (which the `+` and `+=` operators forward to), and
`truncate` (only when it returned instead of panicking; `clear` is
`truncate 1`). -/
inductive ReachableZalgoString : List Nat → Prop where
  | new (s e : List Nat) : ZalgoString.new s = Except.ok e → ReachableZalgoString e
  | push (a b : List Nat) : ReachableZalgoString a → ReachableZalgoString b →
      ReachableZalgoString (ZalgoString.push_zalgo_str a b)
  | truncate (a : List Nat) (n : Nat) (b : List Nat) : ReachableZalgoString a →
      ZalgoString.truncate a n = some b → ReachableZalgoString b

/-- Collecting the `DecodedBytes` iterator from the front
(`src/common/src/zalgo_string/iterators.rs` lines 19-27): each `next`
pulls two bytes off the front of the combining-character bytes and decodes
them as `(odd, even)`; fewer than two remaining bytes means `None`. -/
def DecodedBytes.collectFwd : List Nat → List Nat
  | a :: b :: rest => decode_byte_pair a b :: DecodedBytes.collectFwd rest
  | _ => []

/-- Helper for collecting the `DecodedBytes` iterator from the back:
walks the reversed byte list, so each step sees the last byte (bound as
`even` in the source) and then the second to last (bound as `odd`),
decoding `decode_byte_pair(odd, even)`. -/
def DecodedBytes.collectBwdAux : List Nat → List Nat
  | ev :: od :: rest => decode_byte_pair od ev :: DecodedBytes.collectBwdAux rest
  | _ => []

/-- Collecting a fresh `DecodedBytes` iterator entirely with `next_back`
(`src/common/src/zalgo_string/iterators.rs` lines 66-74). -/
def DecodedBytes.collectBwd (l : List Nat) : List Nat :=
  DecodedBytes.collectBwdAux l.reverse

/-- Modelled from the spec: the `EncodePosition` triple (1-indexed line,
1-indexed column, 0-indexed byte offset) at which encoding stops on the
first unencodable byte, or `none` when every byte is encodable.  The
repository's `src/common/src/error.rs` declares `EncodeError` with exactly
these three fields (its doctests exercise `e.index()`), but the version of
`zalgo_encode` that constructs it is not under `src/`; the `zalgo_encode`
that is under `src/` tracks only line and column.  The missing index
bookkeeping is therefore modelled here from the spec's words: the offset
counts input bytes from 0, the line starts at 1 and is incremented — and
the column reset to 1 — immediately after a consumed newline. -/
def encodePosition : List Nat → Nat → Nat → Nat → Option (Nat × Nat × Nat)
  | [], _, _, _ => none
  | b :: rest, line, column, index =>
    if (32 ≤ b ∧ b < 127) ∨ b = 10 then
      encodePosition rest (if b = 10 then line + 1 else line)
        ((if b = 10 then 0 else column) + 1) (index + 1)
    else some (line, column, index)

/-- Replaces the first occurrence of `marker` in a byte list with `repl`,
used to state the spec's template contract for `zalgo_wrap_python`. -/
def replaceOnce (marker repl : List Nat) : List Nat → List Nat
  | [] => []
  | a :: rest =>
    if marker ≠ [] ∧ (a :: rest).take marker.length = marker then
      repl ++ (a :: rest).drop marker.length
    else a :: replaceOnce marker repl rest

/-- The literal template of the spec for the executable wrapper, with the
`<ENCODED>` placeholder still in place. -/
def pythonTemplate : List Nat :=
  asciiBytes "b='<ENCODED>'.encode();exec(''.join(chr(((h<<6&64|c&63)+22)%133+10)for h,c in zip(b[1::2],b[2::2])))"

/-- An encodable byte is in particular an ASCII byte. -/
theorem EncodableByte.lt_128 {b : Nat} (h : EncodableByte b) : b < 128 := by
  rcases h with ⟨_, h⟩ | h <;> omega

/-- On every byte of the valid domain, `decode_byte_pair` inverts the
byte pair built by the encoding step. -/
theorem decode_encodeByte_all :
    ∀ b, b < 127 → EncodableByte b →
      decode_byte_pair (encodeByte b).1 (encodeByte b).2 = b := by decide

/-- The byte pairs that the scanning loop of `zalgo_encode` emits for a
byte list, two output bytes per input byte. -/
def encPairs : List Nat → List Nat
  | [] => []
  | b :: rest => (encodeByte b).1 :: (encodeByte b).2 :: encPairs rest

theorem encPairs_length (s : List Nat) : (encPairs s).length = 2 * s.length := by
  induction s with
  | nil => rfl
  | cons b rest ih => simp [encPairs, ih]; omega

theorem encPairs_append (a b : List Nat) :
    encPairs (a ++ b) = encPairs a ++ encPairs b := by
  induction a with
  | nil => rfl
  | cons x rest ih => simp [encPairs, ih]

theorem zalgo_encode_loop_ok {s : List Nat} (h : ∀ b ∈ s, EncodableByte b) :
    ∀ line column, zalgo_encode_loop s line column = Except.ok (encPairs s) := by
  induction s with
  | nil => intro line column; rfl
  | cons b rest ih =>
    intro line column
    have hb : (32 ≤ b ∧ b < 127) ∨ b = 10 := h b (by simp)
    have hrest : ∀ x ∈ rest, EncodableByte x := fun x hx => h x (by simp [hx])
    simp only [zalgo_encode_loop, encPairs]
    rw [if_pos hb, ih hrest]

theorem zalgo_encode_ok {s : List Nat} (h : ∀ b ∈ s, EncodableByte b) :
    zalgo_encode s = Except.ok (69 :: encPairs s) := by
  simp [zalgo_encode, zalgo_encode_loop_ok h]

/-- Inversion: if the scanning loop of `zalgo_encode` succeeded, every input
byte was encodable and the output is the flattened list of byte pairs. -/
theorem zalgo_encode_loop_ok_inv :
    ∀ (s : List Nat) (line column : Nat) (out : List Nat),
      zalgo_encode_loop s line column = Except.ok out →
      (∀ b ∈ s, EncodableByte b) ∧ out = encPairs s := by
  intro s
  induction s with
  | nil =>
    intro line column out h
    simp [zalgo_encode_loop] at h
    simp [encPairs, h]
  | cons b rest ih =>
    intro line column out h
    simp only [zalgo_encode_loop] at h
    by_cases hb : (32 ≤ b ∧ b < 127) ∨ b = 10
    · rw [if_pos hb] at h
      cases hrec : zalgo_encode_loop rest (if b = 10 then line + 1 else line)
          ((if b = 10 then 0 else column) + 1) with
      | ok tl =>
        rw [hrec] at h
        obtain ⟨hall, htl⟩ := ih _ _ _ hrec
        refine ⟨?_, ?_⟩
        · intro x hx
          rcases List.mem_cons.mp hx with hx | hx
          · exact hx ▸ hb
          · exact hall x hx
        · cases h
          simp [encPairs, htl]
      | error e =>
        rw [hrec] at h
        cases h
    · rw [if_neg hb] at h
      cases hre : nonprintable_ascii_repr b <;> rw [hre] at h <;> cases h

/-- If `zalgo_encode` succeeded, every input byte was encodable and the
output is the anchor byte followed by the byte pairs. -/
theorem zalgo_encode_ok_inv {s out : List Nat}
    (h : zalgo_encode s = Except.ok out) :
    (∀ b ∈ s, EncodableByte b) ∧ out = 69 :: encPairs s := by
  unfold zalgo_encode at h
  cases hl : zalgo_encode_loop s 1 1 with
  | ok tl =>
    rw [hl] at h
    obtain ⟨hall, htl⟩ := zalgo_encode_loop_ok_inv s 1 1 tl hl
    cases h
    exact ⟨hall, by simp [htl]⟩
  | error e => rw [hl] at h; cases h

theorem decodePairs_encPairs {s : List Nat} (h : ∀ b ∈ s, EncodableByte b) :
    decodePairs (encPairs s) = s := by
  induction s with
  | nil => rfl
  | cons b rest ih =>
    have hb : EncodableByte b := h b (by simp)
    have hrest : ∀ x ∈ rest, EncodableByte x := fun x hx => h x (by simp [hx])
    have hlt : b < 127 := by
      rcases hb with ⟨_, h1⟩ | h1 <;> omega
    simp only [encPairs, decodePairs, ih hrest]
    rw [decode_encodeByte_all b hlt hb]

/-- A list of ASCII bytes passes the UTF-8 validation. -/
theorem utf8Valid_ascii : ∀ {l : List Nat}, (∀ b ∈ l, b < 128) → utf8Valid l = true := by
  intro l
  induction l with
  | nil => intro _; simp [utf8Valid]
  | cons b rest ih =>
    intro h
    have hb : b <= 127 := by have := h b (by simp); omega
    have hrest : ∀ x ∈ rest, x < 128 := fun x hx => h x (by simp [hx])
    rw [utf8Valid, if_pos hb]
    exact ih hrest

/-- Pair decoding distributes over appending an even-length prefix. -/
theorem decodePairs_append :
    ∀ (l r : List Nat), l.length % 2 = 0 →
      decodePairs (l ++ r) = decodePairs l ++ decodePairs r
  | [], r, _ => rfl
  | [_], r, h => by simp at h
  | a :: b :: rest, r, h => by
    have h2 : rest.length % 2 = 0 := by simp at h; omega
    show decode_byte_pair a b :: decodePairs (rest ++ r) =
      decode_byte_pair a b :: (decodePairs rest ++ decodePairs r)
    rw [decodePairs_append rest r h2]

/-- Taking an even number of bytes before pair decoding is taking half as
many decoded bytes after. -/
theorem decodePairs_take :
    ∀ (m : Nat) (p : List Nat), decodePairs (p.take (2 * m)) = (decodePairs p).take m
  | 0, p => by
    cases p with
    | nil => rfl
    | cons a t =>
      cases t with
      | nil => rfl
      | cons b rest => rfl
  | m + 1, [] => by simp [decodePairs]
  | m + 1, [a] => by simp [decodePairs]
  | m + 1, a :: b :: rest => by
    have h2 : 2 * (m + 1) = 2 * m + 1 + 1 := by omega
    rw [h2]
    simp only [List.take_succ_cons, decodePairs, decodePairs_take m rest]

/-- On even-length buffers the panicking in-place decode loop of
`ZalgoString::into_decoded_bytes` returns the decoded pairs. -/
theorem decodePairsPanic_even :
    ∀ {l : List Nat}, l.length % 2 = 0 → decodePairsPanic l = some (decodePairs l)
  | [], _ => rfl
  | [_], h => by simp at h
  | a :: b :: rest, h => by
    have h2 : rest.length % 2 = 0 := by simp at h; omega
    show (decodePairsPanic rest).map (fun t => decode_byte_pair a b :: t) =
      some (decode_byte_pair a b :: decodePairs rest)
    rw [decodePairsPanic_even h2]
    rfl

/-- The invariant carried by the payload (the bytes after the anchor) of a
well-formed `ZalgoString` buffer: even byte length, and every decoded byte
in the encodable domain. -/
def GoodPayload (p : List Nat) : Prop :=
  p.length % 2 = 0 ∧ ∀ b ∈ decodePairs p, EncodableByte b

theorem goodPayload_encPairs {s : List Nat} (h : ∀ b ∈ s, EncodableByte b) :
    GoodPayload (encPairs s) := by
  refine ⟨by rw [encPairs_length]; omega, ?_⟩
  rw [decodePairs_encPairs h]
  exact h

theorem goodPayload_append {p q : List Nat} (hp : GoodPayload p) (hq : GoodPayload q) :
    GoodPayload (p ++ q) := by
  refine ⟨by have h1 := hp.1; have h2 := hq.1; simp only [List.length_append]; omega, ?_⟩
  · rw [decodePairs_append p q hp.1]
    intro b hb
    rcases List.mem_append.mp hb with hb | hb
    · exact hp.2 b hb
    · exact hq.2 b hb

theorem goodPayload_take_even {p : List Nat} (m : Nat) (hp : GoodPayload p) :
    GoodPayload (p.take (2 * m)) := by
  refine ⟨by have h1 := hp.1; simp only [List.length_take]; omega, ?_⟩
  rw [decodePairs_take m p]
  intro b hb
  exact hp.2 b (List.take_subset _ _ hb)

/-- The structural invariant of every reachable `ZalgoString` buffer:
an anchor byte 69 followed by a good payload. -/
theorem reachable_goodPayload {l : List Nat} (h : ReachableZalgoString l) :
    ∃ p, l = 69 :: p ∧ GoodPayload p := by
  induction h with
  | new s e hok =>
    obtain ⟨hall, hout⟩ := zalgo_encode_ok_inv hok
    exact ⟨encPairs s, hout, goodPayload_encPairs hall⟩
  | push a b _ _ iha ihb =>
    obtain ⟨pa, rfl, hpa⟩ := iha
    obtain ⟨pb, rfl, hpb⟩ := ihb
    refine ⟨pa ++ pb, ?_, goodPayload_append hpa hpb⟩
    simp [ZalgoString.push_zalgo_str, ZalgoString.as_combining_chars]
  | truncate a n b _ htr iha =>
    obtain ⟨pa, rfl, hpa⟩ := iha
    unfold ZalgoString.truncate at htr
    by_cases hle : n ≤ (69 :: pa).length
    · rw [if_pos hle] at htr
      by_cases hodd : n % 2 = 1
      · rw [if_pos hodd] at htr
        obtain ⟨m, hm⟩ : ∃ m, n = 2 * m + 1 := ⟨n / 2, by omega⟩
        cases htr
        refine ⟨pa.take (2 * m), ?_, goodPayload_take_even m hpa⟩
        simp [hm]
      · rw [if_neg hodd] at htr; cases htr
    · rw [if_neg hle] at htr
      cases htr
      exact ⟨pa, rfl, hpa⟩

/-- If the scanning loop of `zalgo_encode` stops with an error, the
spec-modelled position scanner stops at the same line and column (at some
byte offset), for any starting offset. -/
theorem encode_loop_error_pos :
    ∀ (s : List Nat) (line column index : Nat) (e : EncodeErr),
      zalgo_encode_loop s line column = Except.error e →
      ∃ i, encodePosition s line column index = some (e.line, e.column, i) := by
  intro s
  induction s with
  | nil => intro line column index e h; simp [zalgo_encode_loop] at h
  | cons b rest ih =>
    intro line column index e h
    simp only [zalgo_encode_loop] at h
    by_cases hb : (32 ≤ b ∧ b < 127) ∨ b = 10
    · rw [if_pos hb] at h
      cases hrec : zalgo_encode_loop rest (if b = 10 then line + 1 else line)
          ((if b = 10 then 0 else column) + 1) with
      | ok tl => rw [hrec] at h; cases h
      | error e2 =>
        rw [hrec] at h
        injection h with h2
        subst h2
        obtain ⟨i, hi⟩ := ih _ _ (index + 1) _ hrec
        refine ⟨i, ?_⟩
        rw [encodePosition, if_pos hb]
        exact hi
    · rw [if_neg hb] at h
      refine ⟨index, ?_⟩
      rw [encodePosition, if_neg hb]
      cases hre : nonprintable_ascii_repr b <;> rw [hre] at h <;>
        injection h with h2 <;> subst h2 <;> rfl

/-- Collecting backwards distributes over appending an even-length
prefix of the reversed buffer. -/
theorem collectBwdAux_append :
    ∀ (xs ys : List Nat), xs.length % 2 = 0 →
      DecodedBytes.collectBwdAux (xs ++ ys) =
        DecodedBytes.collectBwdAux xs ++ DecodedBytes.collectBwdAux ys
  | [], _, _ => rfl
  | [_], _, h => by simp at h
  | a :: b :: rest, ys, h => by
    have h2 : rest.length % 2 = 0 := by simp at h; omega
    show decode_byte_pair b a :: DecodedBytes.collectBwdAux (rest ++ ys) =
      decode_byte_pair b a ::
        (DecodedBytes.collectBwdAux rest ++ DecodedBytes.collectBwdAux ys)
    rw [collectBwdAux_append rest ys h2]

/-- On even-length buffers, collecting the decoded bytes forwards equals
the reverse of collecting them backwards. -/
theorem collect_fwd_eq_reverse_bwd :
    ∀ (p : List Nat), p.length % 2 = 0 →
      DecodedBytes.collectFwd p = (DecodedBytes.collectBwd p).reverse
  | [], _ => rfl
  | [_], h => by simp at h
  | a :: b :: rest, h => by
    have h2 : rest.length % 2 = 0 := by simp at h; omega
    have hrev : (a :: b :: rest).reverse = rest.reverse ++ [b, a] := by simp
    unfold DecodedBytes.collectBwd
    rw [hrev, collectBwdAux_append rest.reverse [b, a] (by simpa using h2)]
    show DecodedBytes.collectFwd (a :: b :: rest) =
      (DecodedBytes.collectBwdAux rest.reverse ++ [decode_byte_pair a b]).reverse
    rw [List.reverse_append]
    show decode_byte_pair a b :: DecodedBytes.collectFwd rest =
      [decode_byte_pair a b].reverse ++ (DecodedBytes.collectBwdAux rest.reverse).reverse
    rw [collect_fwd_eq_reverse_bwd rest h2]
    rfl

/-- Replacing the first occurrence of a marker that sits between a clean
prefix and a suffix splices the replacement between them. -/
theorem replaceOnce_split :
    ∀ (p m e s : List Nat), m ≠ [] →
      (∀ k, k < p.length → ((p ++ m ++ s).drop k).take m.length ≠ m) →
      replaceOnce m e (p ++ m ++ s) = p ++ e ++ s
  | [], m, e, s, hm, _ => by
    cases m with
    | nil => exact absurd rfl hm
    | cons a m2 =>
      show replaceOnce (a :: m2) e (a :: (m2 ++ s)) = e ++ s
      rw [replaceOnce, ← List.cons_append, List.take_left, List.drop_left,
        if_pos ⟨hm, rfl⟩]
  | a :: p2, m, e, s, hm, hmiss => by
    have hne : ¬(m ≠ [] ∧ (a :: (p2 ++ m ++ s)).take m.length = m) := by
      rintro ⟨-, htake⟩
      exact hmiss 0 (by simp) (by simpa using htake)
    have hshift : ∀ k, k < p2.length → ((p2 ++ m ++ s).drop k).take m.length ≠ m := by
      intro k hk
      have := hmiss (k + 1) (by simpa using hk)
      simpa using this
    show replaceOnce m e (a :: (p2 ++ m ++ s)) = a :: (p2 ++ e ++ s)
    rw [replaceOnce, if_neg hne, replaceOnce_split p2 m e s hm hshift]

/-- Claim C1: for every input consisting only of bytes in [32, 126] and the
newline byte 10, `zalgo_encode` succeeds, and `zalgo_decode` applied to its
result returns exactly the original string. -/
theorem zalgo_decode_inverts_zalgo_encode (s : List Nat)
    (h : ∀ b ∈ s, EncodableByte b) :
    ∃ e, zalgo_encode s = Except.ok e ∧ zalgo_decode e = some (Except.ok s) := by
  refine ⟨69 :: encPairs s, zalgo_encode_ok h, ?_⟩
  unfold zalgo_decode
  rw [if_neg (by simp)]
  show some (if utf8Valid (decodePairs (encPairs s)) = true
      then Except.ok (decodePairs (encPairs s))
      else Except.error (decodePairs (encPairs s))) = some (Except.ok s)
  rw [decodePairs_encPairs h, utf8Valid_ascii (fun b hb => (h b hb).lt_128), if_pos rfl]

/-- Witness for C1 at the concrete input "Zalgo". -/
theorem zalgo_decode_inverts_zalgo_encode_witness :
    (∀ b ∈ [90, 97, 108, 103, 111], EncodableByte b) ∧
    ∃ e, zalgo_encode [90, 97, 108, 103, 111] = Except.ok e ∧
      zalgo_decode e = some (Except.ok [90, 97, 108, 103, 111]) :=
  ⟨by decide, zalgo_decode_inverts_zalgo_encode [90, 97, 108, 103, 111] (by decide)⟩

/-- Claim C3: on the valid domain the encoded string has byte length exactly
`2 * n + 1` and starts with the anchor byte 69; in particular encoding the
empty string yields exactly the one-byte string "E". -/
theorem zalgo_encode_length_and_anchor (s : List Nat)
    (h : ∀ b ∈ s, EncodableByte b) :
    (∃ e, zalgo_encode s = Except.ok e ∧ e.length = 2 * s.length + 1 ∧
      e.head? = some 69) ∧
    zalgo_encode [] = Except.ok [69] := by
  refine ⟨⟨69 :: encPairs s, zalgo_encode_ok h, ?_, rfl⟩, by decide⟩
  simp [encPairs_length]

/-- Witness for C3 at the concrete input "a\nb". -/
theorem zalgo_encode_length_and_anchor_witness :
    (∀ b ∈ [97, 10, 98], EncodableByte b) ∧
    ((∃ e, zalgo_encode [97, 10, 98] = Except.ok e ∧
        e.length = 2 * ([97, 10, 98] : List Nat).length + 1 ∧ e.head? = some 69) ∧
      zalgo_encode [] = Except.ok [69]) :=
  ⟨by decide, zalgo_encode_length_and_anchor [97, 10, 98] (by decide)⟩

/-- Claim C2: every buffer reachable through the public `ZalgoString`
operations (`new`, `push_zalgo_str`, the `+` and `+=` operators, `truncate`,
`clear`) is nonempty, begins with the anchor byte 69, has odd byte length
`2 * k + 1`, and decoding its byte pairs with `decode_byte_pair` yields only
printable-ASCII or newline bytes — in particular the buffer decodes without
the in-place loop panicking and the decoded bytes pass UTF-8 validation, so
the validation-skipping `String::from_utf8_unchecked` in
`into_decoded_string` is sound. -/
theorem zalgoString_invariant (l : List Nat) (h : ReachableZalgoString l) :
    l ≠ [] ∧ l.head? = some 69 ∧ l.length % 2 = 1 ∧
    (∀ b ∈ decodePairs (ZalgoString.as_combining_chars l), EncodableByte b) ∧
    ZalgoString.into_decoded_bytes l =
      some (decodePairs (ZalgoString.as_combining_chars l)) ∧
    utf8Valid (decodePairs (ZalgoString.as_combining_chars l)) = true := by
  obtain ⟨p, rfl, hp⟩ := reachable_goodPayload h
  have hcc : ZalgoString.as_combining_chars (69 :: p) = p := rfl
  rw [hcc]
  have hlen := hp.1
  refine ⟨by simp, rfl, by simp; omega, hp.2, ?_, ?_⟩
  · show decodePairsPanic p = some (decodePairs p)
    exact decodePairsPanic_even hlen
  · exact utf8Valid_ascii (fun b hb => (hp.2 b hb).lt_128)

/-- Witness for C2 at the buffer obtained from encoding the empty string. -/
theorem zalgoString_invariant_witness :
    ReachableZalgoString [69] ∧
    (([69] : List Nat) ≠ [] ∧ ([69] : List Nat).head? = some 69 ∧
      ([69] : List Nat).length % 2 = 1 ∧
      (∀ b ∈ decodePairs (ZalgoString.as_combining_chars [69]), EncodableByte b) ∧
      ZalgoString.into_decoded_bytes [69] =
        some (decodePairs (ZalgoString.as_combining_chars [69])) ∧
      utf8Valid (decodePairs (ZalgoString.as_combining_chars [69])) = true) :=
  ⟨ReachableZalgoString.new [] [69] (by decide),
    zalgoString_invariant [69] (ReachableZalgoString.new [] [69] (by decide))⟩

/-- Claim C7: building `ZalgoString`s from two valid inputs, appending the
second to the first with `push_zalgo_str`, and then decoding yields exactly
the concatenation of the two inputs. -/
theorem push_zalgo_str_decodes_to_append (a b : List Nat)
    (ha : ∀ x ∈ a, EncodableByte x) (hb : ∀ x ∈ b, EncodableByte x) :
    ∃ ea eb, ZalgoString.new a = Except.ok ea ∧ ZalgoString.new b = Except.ok eb ∧
      ZalgoString.into_decoded_bytes (ZalgoString.push_zalgo_str ea eb) =
        some (a ++ b) := by
  refine ⟨69 :: encPairs a, 69 :: encPairs b, zalgo_encode_ok ha, zalgo_encode_ok hb, ?_⟩
  have hab : ∀ x ∈ a ++ b, EncodableByte x := by
    intro x hx
    rcases List.mem_append.mp hx with hx | hx
    · exact ha x hx
    · exact hb x hx
  show decodePairsPanic ((ZalgoString.push_zalgo_str (69 :: encPairs a) (69 :: encPairs b)).drop 1) =
    some (a ++ b)
  have hpush : ZalgoString.push_zalgo_str (69 :: encPairs a) (69 :: encPairs b) =
      69 :: encPairs (a ++ b) := by
    show (69 :: encPairs a) ++ encPairs b = 69 :: encPairs (a ++ b)
    rw [encPairs_append]
    rfl
  rw [hpush]
  show decodePairsPanic (encPairs (a ++ b)) = some (a ++ b)
  rw [decodePairsPanic_even (by rw [encPairs_length]; omega), decodePairs_encPairs hab]

/-- Witness for C7 at the concrete inputs "Hi" and "!". -/
theorem push_zalgo_str_decodes_to_append_witness :
    (∀ x ∈ [72, 105], EncodableByte x) ∧ (∀ x ∈ [33], EncodableByte x) ∧
    ∃ ea eb, ZalgoString.new [72, 105] = Except.ok ea ∧
      ZalgoString.new [33] = Except.ok eb ∧
      ZalgoString.into_decoded_bytes (ZalgoString.push_zalgo_str ea eb) =
        some ([72, 105] ++ [33]) :=
  ⟨by decide, by decide,
    push_zalgo_str_decodes_to_append [72, 105] [33] (by decide) (by decide)⟩

/-- Claim C9: for every reachable `ZalgoString`, collecting the decoded-bytes
iterator entirely from the front equals the reverse of collecting a fresh
decoded-bytes iterator entirely from the back. -/
theorem decoded_bytes_fwd_eq_reverse_bwd (l : List Nat)
    (h : ReachableZalgoString l) :
    DecodedBytes.collectFwd (ZalgoString.as_combining_chars l) =
      (DecodedBytes.collectBwd (ZalgoString.as_combining_chars l)).reverse := by
  obtain ⟨p, rfl, hp⟩ := reachable_goodPayload h
  exact collect_fwd_eq_reverse_bwd p hp.1

/-- Witness for C9 at the buffer obtained from encoding "Za". -/
theorem decoded_bytes_fwd_eq_reverse_bwd_witness :
    ReachableZalgoString [69, 204, 186, 205, 129] ∧
    DecodedBytes.collectFwd (ZalgoString.as_combining_chars [69, 204, 186, 205, 129]) =
      (DecodedBytes.collectBwd
        (ZalgoString.as_combining_chars [69, 204, 186, 205, 129])).reverse :=
  ⟨ReachableZalgoString.new [90, 97] [69, 204, 186, 205, 129] (by decide),
    decoded_bytes_fwd_eq_reverse_bwd [69, 204, 186, 205, 129]
      (ReachableZalgoString.new [90, 97] [69, 204, 186, 205, 129] (by decide))⟩

/-- Counterexample to claim C8 as stated: the even target length 2 does not
make `truncate` panic on the `ZalgoString` "E" (obtained by encoding the
empty string), because the oddness assertion sits inside the
`new_len <= self.len()` branch and `2 > 1` makes the call a no-op. -/
theorem truncate_even_beyond_length_no_panic :
    zalgo_encode [] = Except.ok [69] ∧ ZalgoString.truncate [69] 2 = some [69] := by
  decide

/-- Amended claim C8: `truncate` panics exactly when the target length is
even and does not exceed the current length (an even target larger than the
length is a silent no-op); with an odd target length no panic occurs and the
resulting buffer is at most the target length and at most the old length. -/
theorem truncate_panic_iff (l : List Nat) (n : Nat) :
    (ZalgoString.truncate l n = none ↔ n % 2 = 0 ∧ n ≤ l.length) ∧
    (n % 2 = 1 → ∃ r, ZalgoString.truncate l n = some r ∧ r.length ≤ n ∧
      r.length ≤ l.length) := by
  unfold ZalgoString.truncate
  constructor
  · by_cases hle : n ≤ l.length
    · rw [if_pos hle]
      by_cases hodd : n % 2 = 1
      · rw [if_pos hodd]
        simp
        omega
      · rw [if_neg hodd]
        simp
        omega
    · rw [if_neg hle]
      simp
      omega
  · intro hodd
    by_cases hle : n ≤ l.length
    · rw [if_pos hle, if_pos hodd]
      exact ⟨l.take n, rfl, by simp, by simp⟩
    · rw [if_neg hle]
      exact ⟨l, rfl, by omega, le_refl _⟩

/-- Witness for the amended C8 at the odd target length 3 on "E". -/
theorem truncate_panic_iff_witness :
    (ZalgoString.truncate [69] 3 = none ↔ 3 % 2 = 0 ∧ 3 ≤ ([69] : List Nat).length) ∧
    ∃ r, ZalgoString.truncate [69] 3 = some r ∧ r.length ≤ 3 ∧
      r.length ≤ ([69] : List Nat).length :=
  ⟨(truncate_panic_iff [69] 3).1, (truncate_panic_iff [69] 3).2 (by decide)⟩

/-- Claim C4 (settled as a code bug): `zalgo_decode` on the empty string does
not return the `DecodeError::EmptyInput` value that `error.rs` declares for
"The given string was empty" — the subtraction `encoded.len() - 1` underflows
`usize` first, a panic (modelled as `none`); the second half of the claim
holds: decoding the one-byte anchor-only string succeeds with the empty
string. -/
theorem zalgo_decode_empty_panics_anchor_ok :
    zalgo_decode [] = none ∧ zalgo_decode [69] = some (Except.ok []) := by
  refine ⟨by decide, ?_⟩
  show zalgo_decode [69] = some (Except.ok [])
  unfold zalgo_decode
  rw [if_neg (by simp)]
  show some (if utf8Valid (decodePairs []) = true
      then Except.ok (decodePairs []) else Except.error (decodePairs [])) =
    some (Except.ok [])
  rw [show decodePairs [] = [] from rfl, utf8Valid_ascii (by simp), if_pos rfl]

/-- Claim C5 (settled as a code bug): `zalgo_decode` returns a value — some
string or a decode error — on every nonempty input, however malformed, with
every index in bounds; but on the empty string the very first length
computation underflows and the function panics instead of returning. -/
theorem zalgo_decode_total_except_empty :
    zalgo_decode [] = none ∧
    ∀ l : List Nat, l ≠ [] → ∃ r, zalgo_decode l = some r := by
  refine ⟨by decide, ?_⟩
  intro l hl
  unfold zalgo_decode
  rw [if_neg hl]
  exact ⟨_, rfl⟩

/-- Witness for C5 at the concrete malformed input "a". -/
theorem zalgo_decode_total_except_empty_witness :
    (([97] : List Nat) ≠ []) ∧ ∃ r, zalgo_decode [97] = some r :=
  ⟨by decide, zalgo_decode_total_except_empty.2 [97] (by decide)⟩

/-- Claim C6: when `zalgo_encode` rejects a byte it stops at the first
offending unit, and the spec-modelled `EncodePosition` scanner — 1-indexed
line, 1-indexed column, 0-indexed byte offset, with the line incremented and
the column reset immediately after each consumed newline — agrees with the
line and column stored in the returned error; in particular "a\nb\nc\r"
fails on line 3 (column 2, offset 5) and "I ❤️ 🎂" fails at column 3 of
line 1 (offset 2), as both scanners confirm on those concrete inputs. -/
theorem zalgo_encode_error_position (s : List Nat) (e : EncodeErr)
    (h : zalgo_encode s = Except.error e) :
    (∃ i, encodePosition s 1 1 0 = some (e.line, e.column, i)) ∧
    encodePosition [97, 10, 98, 10, 99, 13] 1 1 0 = some (3, 2, 5) ∧
    encodePosition [73, 32, 226, 157, 164, 239, 184, 143, 32, 240, 159, 142, 130]
      1 1 0 = some (1, 3, 2) ∧
    zalgo_encode [97, 10, 98, 10, 99, 13] =
      Except.error (EncodeErr.unencodableAscii 13 3 2 ("Carriage Return")) ∧
    zalgo_encode [73, 32, 226, 157, 164, 239, 184, 143, 32, 240, 159, 142, 130] =
      Except.error (EncodeErr.notAscii (some 10084) 1 3) := by
  refine ⟨?_, by decide, by decide, by decide, by decide⟩
  unfold zalgo_encode at h
  cases hl : zalgo_encode_loop s 1 1 with
  | ok tl => rw [hl] at h; cases h
  | error e2 =>
    rw [hl] at h
    injection h with h2
    subst h2
    exact encode_loop_error_pos s 1 1 0 e2 hl

/-- Witness for C6 at the concrete input "\r". -/
theorem zalgo_encode_error_position_witness :
    zalgo_encode [13] =
      Except.error (EncodeErr.unencodableAscii 13 1 1 ("Carriage Return")) ∧
    ((∃ i, encodePosition [13] 1 1 0 =
        some ((EncodeErr.unencodableAscii 13 1 1 ("Carriage Return")).line,
          (EncodeErr.unencodableAscii 13 1 1 ("Carriage Return")).column, i)) ∧
      encodePosition [97, 10, 98, 10, 99, 13] 1 1 0 = some (3, 2, 5) ∧
      encodePosition [73, 32, 226, 157, 164, 239, 184, 143, 32, 240, 159, 142, 130]
        1 1 0 = some (1, 3, 2) ∧
      zalgo_encode [97, 10, 98, 10, 99, 13] =
        Except.error (EncodeErr.unencodableAscii 13 3 2 ("Carriage Return")) ∧
      zalgo_encode [73, 32, 226, 157, 164, 239, 184, 143, 32, 240, 159, 142, 130] =
        Except.error (EncodeErr.notAscii (some 10084) 1 3)) :=
  ⟨by decide, zalgo_encode_error_position [13]
    (EncodeErr.unencodableAscii 13 1 1 ("Carriage Return")) (by decide)⟩

/-- Claim C10: `zalgo_wrap_python` returns exactly the spec's literal
template with `<ENCODED>` replaced, byte for byte, by the output of
`zalgo_encode` on the input, and passes the error of `zalgo_encode` through
unchanged on invalid inputs. -/
theorem zalgo_wrap_python_is_template_substitution (python : List Nat) :
    zalgo_wrap_python python =
      match zalgo_encode python with
      | Except.ok e => Except.ok (replaceOnce (asciiBytes "<ENCODED>") e pythonTemplate)
      | Except.error err => Except.error err := by
  unfold zalgo_wrap_python
  cases h : zalgo_encode python with
  | error err => rfl
  | ok e =>
    show Except.ok _ = Except.ok _
    rw [show pythonTemplate =
        asciiBytes "b='" ++ asciiBytes "<ENCODED>" ++
          asciiBytes "'.encode();exec(''.join(chr(((h<<6&64|c&63)+22)%133+10)for h,c in zip(b[1::2],b[2::2])))"
      from by decide]
    rw [replaceOnce_split (asciiBytes "b='") (asciiBytes "<ENCODED>") e
      (asciiBytes "'.encode();exec(''.join(chr(((h<<6&64|c&63)+22)%133+10)for h,c in zip(b[1::2],b[2::2])))")
      (by decide) (by decide)]
